import Mathlib

/-!
Verification of `quadratic-core/src/util.rs`: the bijective base-26
column-name encoder `column_name`, the decoder `column_from_name`, and the
list formatter `join_with_conjunction`, shallowly embedded over `Int`
(with explicit 64-bit range checks where the Rust code uses checked
arithmetic).
-/

namespace Quadratic

/-- `i64::MIN` as an integer. -/
def i64min : Int := -(2 ^ 63)

/-- `i64::MAX` as an integer. -/
def i64max : Int := 2 ^ 63 - 1

/-- The byte string `b"ABCDEFGHIJKLMNOPQRSTUVWXYZ"` indexed by the encoder. -/
def alphabet : List Char := "ABCDEFGHIJKLMNOPQRSTUVWXYZ".data

/-- The letter pushed for the digit `i` (`b"ABC..."[i]` in the source). -/
def letterOf (i : Nat) : Char := alphabet.getD i 'A'

/-- The encoder loop of `column_name`, on the non-negative value: push the
letter for `n % 26`, divide by 26, stop when the quotient is 0, otherwise
decrement and continue.  Produces the digits least-significant first. -/
def colChars (n : Nat) : List Char :=
  if h : n / 26 = 0 then [letterOf (n % 26)]
  else letterOf (n % 26) :: colChars (n / 26 - 1)
  decreasing_by
    exact Nat.lt_of_le_of_lt (Nat.sub_le _ _)
      (Nat.div_lt_self (Nat.pos_of_ne_zero fun hn => h (by simp [hn])) (by decide))

/-- `column_name` from `util.rs`: negative inputs are transformed by
`n := -(n + 1)` and marked with a leading `'n'`; the digit list is
reversed into the final string. -/
def column_name (n : Int) : String :=
  if n < 0 then ⟨'n' :: (colChars (-(n + 1)).toNat).reverse⟩
  else ⟨(colChars n.toNat).reverse⟩

/-- The inner `digit` function of `column_from_name`: an uppercase letter
maps to `c as i64 - 'A' as i64`, anything else is invalid. -/
def digit (c : Char) : Option Int :=
  if 'A' ≤ c ∧ c ≤ 'Z' then some ((c.toNat : Int) - 65) else none

/-- Rust `i64::checked_add`: the mathematical sum if it is representable
in 64 bits, else `none`. -/
def checkedAdd (a b : Int) : Option Int :=
  if i64min ≤ a + b ∧ a + b ≤ i64max then some (a + b) else none

/-- Rust `i64::checked_mul`: the mathematical product if it is
representable in 64 bits, else `none`. -/
def checkedMul (a b : Int) : Option Int :=
  if i64min ≤ a * b ∧ a * b ≤ i64max then some (a * b) else none

/-- One decoder iteration:
`ret.checked_add(1)?.checked_mul(26)?.checked_add(digit(char)?)?`. -/
def decodeStep (acc : Int) (c : Char) : Option Int := do
  let a ← checkedAdd acc 1
  let m ← checkedMul a 26
  let d ← digit c
  checkedAdd m d

/-- The decoder's `for char in chars` loop over the remaining characters. -/
def decodeLoop : List Char → Int → Option Int
  | [], acc => some acc
  | c :: rest, acc => do
    let r ← decodeStep acc c
    decodeLoop rest r

/-- Decoding of the letter portion: seed the accumulator with the digit of
the first character (`None` when empty), then run the loop. -/
def decodeList : List Char → Option Int
  | [] => none
  | c :: rest => do
    let d ← digit c
    decodeLoop rest d

/-- `column_from_name` from `util.rs`: strip a single leading `'n'` (and
remember it), decode the letter portion, then negate via `-ret - 1` when
the flag was set. -/
def column_from_name (s : String) : Option Int :=
  if s.data.head? = some 'n' then (decodeList s.data.tail).map fun r => -r - 1
  else decodeList s.data

/-- `join_with_conjunction` from `util.rs`, with items already rendered to
strings (the Rust code is generic over `fmt::Display`). -/
def join_with_conjunction (conjunction : String) (items : List String) : String :=
  match items with
  | [] => "(none)"
  | [a] => a
  | [a, b] => a ++ " " ++ conjunction ++ " " ++ b
  | _ => String.join (items.dropLast.map fun x => x ++ ", ")
      ++ conjunction ++ " " ++ items.getLastD ""

/-! ### Basic facts about the alphabet, digits and checked arithmetic -/

theorem i64min_eq : i64min = -9223372036854775808 := by norm_num [i64min]

theorem i64max_eq : i64max = 9223372036854775807 := by norm_num [i64max]

theorem digit_letterOf : ∀ r : Nat, r < 26 → digit (letterOf r) = some (r : Int) := by
  decide

theorem letterOf_upper : ∀ r : Nat, r < 26 → 'A' ≤ letterOf r ∧ letterOf r ≤ 'Z' := by
  decide

theorem letterOf_toNat : ∀ r : Nat, r < 26 → (letterOf r).toNat = 65 + r := by
  decide

theorem char_toNat_inj {c₁ c₂ : Char} (h : c₁.toNat = c₂.toNat) : c₁ = c₂ :=
  Char.ext (UInt32.ext h)

theorem letterOf_inv {c : Char} (h1 : 'A' ≤ c) (h2 : c ≤ 'Z') :
    letterOf (c.toNat - 65) = c := by
  rw [Char.le_def] at h1 h2
  have hlo : 65 ≤ c.toNat := h1
  have hhi : c.toNat ≤ 90 := h2
  have hr : c.toNat - 65 < 26 := by omega
  apply char_toNat_inj
  rw [letterOf_toNat _ hr]
  omega

theorem digit_eq_some {c : Char} {d : Int} (h : digit c = some d) :
    'A' ≤ c ∧ c ≤ 'Z' ∧ d = (c.toNat : Int) - 65 ∧ 0 ≤ d ∧ d ≤ 25 := by
  unfold digit at h
  split at h
  · rename_i hc
    cases h
    have h1 : 65 ≤ c.toNat := Char.le_def.mp hc.1
    have h2 : c.toNat ≤ 90 := Char.le_def.mp hc.2
    exact ⟨hc.1, hc.2, rfl, by omega, by omega⟩
  · cases h

theorem checkedAdd_some {a b v : Int} (h : checkedAdd a b = some v) :
    v = a + b ∧ i64min ≤ a + b ∧ a + b ≤ i64max := by
  unfold checkedAdd at h
  split at h
  · rename_i hc
    cases h
    exact ⟨rfl, hc.1, hc.2⟩
  · cases h

theorem checkedMul_some {a b v : Int} (h : checkedMul a b = some v) :
    v = a * b ∧ i64min ≤ a * b ∧ a * b ≤ i64max := by
  unfold checkedMul at h
  split at h
  · rename_i hc
    cases h
    exact ⟨rfl, hc.1, hc.2⟩
  · cases h

theorem checkedAdd_of_bounds {a b : Int} (h1 : i64min ≤ a + b) (h2 : a + b ≤ i64max) :
    checkedAdd a b = some (a + b) := by
  unfold checkedAdd
  exact if_pos ⟨h1, h2⟩

theorem checkedMul_of_bounds {a b : Int} (h1 : i64min ≤ a * b) (h2 : a * b ≤ i64max) :
    checkedMul a b = some (a * b) := by
  unfold checkedMul
  exact if_pos ⟨h1, h2⟩

/-! ### Facts about the encoder loop -/

theorem colChars_ne_nil (m : Nat) : colChars m ≠ [] := by
  rw [colChars]
  split <;> simp

theorem colChars_mem_upper : ∀ m : Nat, ∀ c ∈ colChars m, 'A' ≤ c ∧ c ≤ 'Z' := by
  intro m
  induction m using Nat.strong_induction_on with
  | _ m ih =>
    rw [colChars]
    split
    · intro c hc
      simp only [List.mem_singleton] at hc
      subst hc
      exact letterOf_upper _ (Nat.mod_lt _ (by decide))
    · rename_i h
      intro c hc
      rcases List.mem_cons.mp hc with h1 | h1
      · subst h1
        exact letterOf_upper _ (Nat.mod_lt _ (by decide))
      · exact ih (m / 26 - 1) (by omega) c h1

/-! ### The decoder loop, processed from the most significant end -/

theorem decodeLoop_append (xs : List Char) (c : Char) (acc : Int) :
    decodeLoop (xs ++ [c]) acc = (decodeLoop xs acc).bind fun r => decodeStep r c := by
  induction xs generalizing acc with
  | nil => simp [decodeLoop]
  | cons x xs ih =>
    simp only [List.cons_append, decodeLoop, bind, Option.bind_assoc]
    cases decodeStep acc x with
    | none => rfl
    | some r => exact ih r

theorem decodeList_append (y : Char) (ys : List Char) (c : Char) :
    decodeList (y :: ys ++ [c]) = (decodeList (y :: ys)).bind fun r => decodeStep r c := by
  simp only [List.cons_append, decodeList, bind, decodeLoop_append, Option.bind_assoc]

/-- Decoding the reversed digit list produced by the encoder loop recovers
the input, as long as it fits in 64 bits (so that the checked arithmetic
never trips). -/
theorem decodeList_colChars : ∀ m : Nat, (m : Int) ≤ i64max →
    decodeList ((colChars m).reverse) = some (m : Int) := by
  intro m
  induction m using Nat.strong_induction_on with
  | _ m ih =>
    intro hm
    rw [colChars]
    split
    · rename_i h0
      have hm26 : m < 26 := by omega
      have hmod : m % 26 = m := Nat.mod_eq_of_lt hm26
      simp only [List.reverse_singleton, decodeList, bind, decodeLoop, hmod,
        digit_letterOf m hm26, Option.some_bind]
    · rename_i h0
      have hq1 : 1 ≤ m / 26 := Nat.pos_of_ne_zero h0
      have hqm : m / 26 ≤ m := Nat.div_le_self m 26
      rw [List.reverse_cons]
      obtain ⟨y, ys, hyy⟩ : ∃ y ys, (colChars (m / 26 - 1)).reverse = y :: ys := by
        cases hrev : (colChars (m / 26 - 1)).reverse with
        | nil => exact absurd (List.reverse_eq_nil_iff.mp hrev) (colChars_ne_nil _)
        | cons y ys => exact ⟨y, ys, rfl⟩
      rw [hyy, decodeList_append, ← hyy,
        ih (m / 26 - 1) (by omega) (by omega)]
      have hdm : m % 26 < 26 := Nat.mod_lt _ (by decide)
      have hdiv : 26 * (m / 26) + m % 26 = m := Nat.div_add_mod m 26
      have e1 : checkedAdd ((m / 26 - 1 : Nat) : Int) 1 = some ((m / 26 : Nat) : Int) := by
        have : ((m / 26 - 1 : Nat) : Int) + 1 = ((m / 26 : Nat) : Int) := by push_cast; omega
        rw [← this]
        exact checkedAdd_of_bounds (by rw [i64min_eq]; omega)
          (by rw [i64max_eq] at *; omega)
      have e2 : checkedMul ((m / 26 : Nat) : Int) 26 = some (((m / 26) * 26 : Nat) : Int) := by
        have : ((m / 26 : Nat) : Int) * 26 = (((m / 26) * 26 : Nat) : Int) := by push_cast; ring
        rw [← this]
        exact checkedMul_of_bounds (by rw [i64min_eq]; push_cast; omega)
          (by rw [i64max_eq] at *; push_cast; omega)
      have e3 : checkedAdd (((m / 26) * 26 : Nat) : Int) ((m % 26 : Nat) : Int) =
          some (m : Int) := by
        have : (((m / 26) * 26 : Nat) : Int) + ((m % 26 : Nat) : Int) = (m : Int) := by
          push_cast; omega
        rw [← this]
        exact checkedAdd_of_bounds (by rw [i64min_eq]; push_cast; omega)
          (by rw [i64max_eq] at *; push_cast; omega)
      rw [Option.some_bind]
      show decodeStep _ _ = _
      unfold decodeStep
      simp only [Option.bind_eq_bind, Option.some_bind, e1, e2, e3, digit_letterOf _ hdm]

theorem decodeStep_inv {acc r : Int} {c : Char} (h : decodeStep acc c = some r) :
    ∃ d, digit c = some d ∧ 0 ≤ d ∧ d ≤ 25 ∧ 'A' ≤ c ∧ c ≤ 'Z' ∧
      r = (acc + 1) * 26 + d ∧ r ≤ i64max := by
  unfold decodeStep at h
  simp only [Option.bind_eq_bind, Option.bind_eq_some] at h
  obtain ⟨a, ha, m2, hm2, d, hd, hr⟩ := h
  obtain ⟨hav, _, _⟩ := checkedAdd_some ha
  obtain ⟨hmv, _, _⟩ := checkedMul_some hm2
  obtain ⟨hrv, _, hrmax⟩ := checkedAdd_some hr
  obtain ⟨hA, hZ, _, hd0, hd25⟩ := digit_eq_some hd
  exact ⟨d, hd, hd0, hd25, hA, hZ, by omega, by omega⟩

/-- Any successfully decoded letter list is in range and is exactly the
reversed encoder digit list of its value. -/
theorem decodeList_sound : ∀ cs : List Char, ∀ r : Int, decodeList cs = some r →
    0 ≤ r ∧ r ≤ i64max ∧ (colChars r.toNat).reverse = cs := by
  intro cs
  induction cs using List.reverseRecOn with
  | nil => intro r h; simp [decodeList] at h
  | append_singleton ys c ih =>
    intro r h
    cases ys with
    | nil =>
      simp only [List.nil_append, decodeList, bind, decodeLoop,
        Option.bind_eq_bind, Option.bind_eq_some] at h
      obtain ⟨d, hd, hdr⟩ := h
      cases hdr
      obtain ⟨hA, hZ, hval, hlo, hhi⟩ := digit_eq_some hd
      have h1 : 65 ≤ c.toNat := Char.le_def.mp hA
      have h2 : c.toNat ≤ 90 := Char.le_def.mp hZ
      refine ⟨hlo, by rw [i64max_eq]; omega, ?_⟩
      have h26 : r.toNat < 26 := by omega
      rw [colChars, dif_pos (by omega : r.toNat / 26 = 0), Nat.mod_eq_of_lt h26]
      have hnat : r.toNat = c.toNat - 65 := by omega
      rw [hnat, letterOf_inv hA hZ, List.reverse_singleton, List.nil_append]
    | cons y ys' =>
      rw [decodeList_append] at h
      rcases Option.bind_eq_some.mp h with ⟨r', hr', hstep⟩
      obtain ⟨hr'0, hr'max, hcs⟩ := ih r' hr'
      obtain ⟨d, hd, hd0, hd25, hA, hZ, hrv, hrmax⟩ := decodeStep_inv hstep
      have hr0 : 0 ≤ r := by omega
      refine ⟨hr0, hrmax, ?_⟩
      have hnat : r.toNat = (r'.toNat + 1) * 26 + d.toNat := by omega
      have hdivnz : ¬ r.toNat / 26 = 0 := by omega
      rw [colChars, dif_neg hdivnz]
      have hmod : r.toNat % 26 = d.toNat := by omega
      have hdivv : r.toNat / 26 - 1 = r'.toNat := by omega
      rw [hmod, hdivv, List.reverse_cons, hcs]
      have hdc : d.toNat = c.toNat - 65 := by
        have h1 : 65 ≤ c.toNat := Char.le_def.mp hA
        obtain ⟨_, _, hval, _, _⟩ := digit_eq_some hd
        omega
      rw [hdc, letterOf_inv hA hZ]

/-! ### Unfolding `column_from_name` on explicit character lists -/

theorem column_from_name_mk_n (l : List Char) :
    column_from_name ⟨'n' :: l⟩ = (decodeList l).map fun r => -r - 1 := rfl

theorem column_from_name_mk_not_n {c : Char} (hc : c ≠ 'n') (l : List Char) :
    column_from_name ⟨c :: l⟩ = decodeList (c :: l) := by
  unfold column_from_name
  rw [if_neg fun h => hc (by simpa using h)]

/-- Shared helper: whenever the decoder accepts `s` with value `k`, the
encoder maps `k` back to `s` exactly. -/
theorem column_name_of_decode {s : String} {k : Int} (h : column_from_name s = some k) :
    column_name k = s := by
  unfold column_from_name at h
  split at h
  · rename_i hn
    rcases Option.map_eq_some'.mp h with ⟨r, hr, hk⟩
    obtain ⟨hr0, hrmax, henc⟩ := decodeList_sound _ _ hr
    unfold column_name
    rw [if_pos (by omega : k < 0)]
    have hrk : -(k + 1) = r := by omega
    rw [hrk, henc]
    have hdata : s.data = 'n' :: s.data.tail := by
      cases hcs : s.data with
      | nil => rw [hcs] at hn; simp at hn
      | cons a l =>
        rw [hcs] at hn
        simp only [List.head?_cons, Option.some.injEq] at hn
        rw [hn]
        rfl
    calc (⟨'n' :: s.data.tail⟩ : String) = ⟨s.data⟩ := by rw [← hdata]
      _ = s := rfl
  · obtain ⟨hk0, hkmax, henc⟩ := decodeList_sound _ _ h
    unfold column_name
    rw [if_neg (by omega : ¬ k < 0), henc]

/-! ### The claims -/

/-- C1: for every 64-bit signed integer `n`, decoding the encoding of `n`
succeeds and returns `n`: `column_from_name (column_name n) = some n`,
including at both extremes of the `i64` range. -/
theorem roundtrip_decode_encode (n : Int) (h1 : i64min ≤ n) (h2 : n ≤ i64max) :
    column_from_name (column_name n) = some n := by
  unfold column_name
  by_cases hn : n < 0
  · rw [if_pos hn, column_from_name_mk_n,
      decodeList_colChars ((-(n + 1)).toNat)
        (by rw [i64min_eq] at h1; rw [i64max_eq] at h2 ⊢; omega),
      Option.map_some']
    congr 1
    omega
  · rw [if_neg hn]
    obtain ⟨c, l, hcl⟩ : ∃ c l, (colChars n.toNat).reverse = c :: l := by
      cases hrev : (colChars n.toNat).reverse with
      | nil => exact absurd (List.reverse_eq_nil_iff.mp hrev) (colChars_ne_nil _)
      | cons c l => exact ⟨c, l, rfl⟩
    have hcu : 'A' ≤ c ∧ c ≤ 'Z' := colChars_mem_upper _ c (by
      rw [← List.mem_reverse, hcl]
      exact List.mem_cons_self _ _)
    have hcn : c ≠ 'n' := by
      intro he
      have hz := hcu.2
      rw [he] at hz
      exact absurd hz (by decide)
    rw [hcl, column_from_name_mk_not_n hcn, ← hcl,
      decodeList_colChars n.toNat (by rw [i64max_eq] at h2 ⊢; omega)]
    congr 1
    omega

theorem roundtrip_decode_encode_witness :
    column_from_name (column_name i64min) = some i64min ∧
    column_from_name (column_name i64max) = some i64max :=
  ⟨roundtrip_decode_encode i64min (le_refl _) (by rw [i64min_eq, i64max_eq]; omega),
   roundtrip_decode_encode i64max (by rw [i64min_eq, i64max_eq]; omega) (le_refl _)⟩

/-- C2: every decodable string is reproduced exactly by the encoder:
`column_from_name s = some k` implies `column_name k = s`. -/
theorem encode_of_decodable (s : String) (k : Int) (h : column_from_name s = some k) :
    column_name k = s :=
  column_name_of_decode h

theorem encode_of_decodable_witness : column_name 27 = "AB" :=
  encode_of_decodable "AB" 27 (by decide)

/-- The value fed to the encoder loop: the sign transform `n := -(n + 1)`
applied by `column_name` to negative inputs. -/
def encInput (n : Int) : Int := if n < 0 then -(n + 1) else n

/-- C3: the encoder is total on `i64` with no overflow: the sign transform
`-(n + 1)` stays within the `i64` range for every input (so the magnitude
`i64::MAX` is reachable from `n = i64::MIN` without overflow), and the
encoder always returns a non-empty label. -/
theorem encoder_total_no_overflow (n : Int) (h1 : i64min ≤ n) (h2 : n ≤ i64max) :
    (0 ≤ encInput n ∧ encInput n ≤ i64max) ∧ (column_name n).data ≠ [] := by
  constructor
  · unfold encInput
    rw [i64min_eq] at h1
    rw [i64max_eq] at h2 ⊢
    split <;> omega
  · unfold column_name
    split
    · show 'n' :: _ ≠ []
      simp
    · show (colChars n.toNat).reverse ≠ []
      rw [ne_eq, List.reverse_eq_nil_iff]
      exact colChars_ne_nil _

theorem encoder_total_no_overflow_witness :
    (0 ≤ encInput i64min ∧ encInput i64min ≤ i64max) ∧ (column_name i64min).data ≠ [] :=
  encoder_total_no_overflow i64min (le_refl _) (by rw [i64min_eq, i64max_eq]; omega)

/-- C4: accumulator overflow during decoding yields `None`, not a wrapped
value: the string one past the encoding of `i64::MAX`, and its negative
counterpart, are both rejected. -/
theorem decoder_overflow_rejected :
    column_from_name "CRPXNLSKVLJFHI" = none ∧
    column_from_name "nCRPXNLSKVLJFHI" = none := by
  decide

/-- C5: malformed labels are rejected with `None`: empty string, a bare
`'n'`, digits, an interior `'n'`, and a doubled leading `'n'`. -/
theorem decoder_rejects_malformed :
    column_from_name "" = none ∧ column_from_name "n" = none ∧
    column_from_name "93" = none ∧ column_from_name "AnZ" = none ∧
    column_from_name "nnB" = none := by
  decide

/-- C6: sign symmetry of the encoder: for every non-negative `n` in range,
`column_name (-(n + 1))` is `"n"` prepended to `column_name n`. -/
theorem encoder_sign_symmetry (n : Int) (h1 : 0 ≤ n) (_h2 : n ≤ i64max) :
    column_name (-(n + 1)) = "n" ++ column_name n := by
  unfold column_name
  rw [if_pos (by omega : -(n + 1) < 0), if_neg (by omega : ¬ n < 0)]
  have he : -(-(n + 1) + 1) = n := by ring
  rw [he]
  rfl

theorem encoder_sign_symmetry_witness : column_name (-(25 + 1)) = "n" ++ column_name 25 :=
  encoder_sign_symmetry 25 (by decide) (by decide)

/-- C7: the exact bijective base-26 boundary transitions of the encoder,
at ±26 and ±702. -/
theorem encoder_boundary_transitions :
    column_name 25 = "Z" ∧ column_name 26 = "AA" ∧
    column_name 701 = "ZZ" ∧ column_name 702 = "AAA" ∧
    column_name (-26) = "nZ" ∧ column_name (-27) = "nAA" :=
  ⟨column_name_of_decode (s := "Z") (by decide),
   column_name_of_decode (s := "AA") (by decide),
   column_name_of_decode (s := "ZZ") (by decide),
   column_name_of_decode (s := "AAA") (by decide),
   column_name_of_decode (s := "nZ") (by decide),
   column_name_of_decode (s := "nAA") (by decide)⟩

/-- C8: label structure: for `n ≥ 0` the label is non-empty, all uppercase
`A`–`Z`, and never contains `'n'`; for `n < 0` it is exactly one `'n'`
followed by one or more uppercase letters. -/
theorem label_structure (n : Int) (_h1 : i64min ≤ n) (_h2 : n ≤ i64max) :
    (0 ≤ n → (column_name n).data ≠ [] ∧
      (∀ c ∈ (column_name n).data, 'A' ≤ c ∧ c ≤ 'Z') ∧
      'n' ∉ (column_name n).data) ∧
    (n < 0 → ∃ ds, (column_name n).data = 'n' :: ds ∧ ds ≠ [] ∧
      ∀ c ∈ ds, 'A' ≤ c ∧ c ≤ 'Z') := by
  constructor
  · intro hn
    unfold column_name
    rw [if_neg (by omega : ¬ n < 0)]
    refine ⟨?_, ?_, ?_⟩
    · show (colChars n.toNat).reverse ≠ []
      rw [ne_eq, List.reverse_eq_nil_iff]
      exact colChars_ne_nil _
    · intro c hc
      exact colChars_mem_upper _ c (List.mem_reverse.mp hc)
    · intro hc
      have hu := colChars_mem_upper _ 'n' (List.mem_reverse.mp hc)
      exact absurd hu.2 (by decide)
  · intro hn
    unfold column_name
    rw [if_pos hn]
    refine ⟨(colChars (-(n + 1)).toNat).reverse, rfl, ?_, ?_⟩
    · rw [ne_eq, List.reverse_eq_nil_iff]
      exact colChars_ne_nil _
    · intro c hc
      exact colChars_mem_upper _ c (List.mem_reverse.mp hc)

theorem label_structure_witness :
    ((column_name 3).data ≠ [] ∧
      (∀ c ∈ (column_name 3).data, 'A' ≤ c ∧ c ≤ 'Z') ∧
      'n' ∉ (column_name 3).data) ∧
    (∃ ds, (column_name (-3)).data = 'n' :: ds ∧ ds ≠ [] ∧
      ∀ c ∈ ds, 'A' ≤ c ∧ c ≤ 'Z') :=
  ⟨(label_structure 3 (by decide) (by decide)).1 (by decide),
   (label_structure (-3) (by decide) (by decide)).2 (by decide)⟩

/-- C9: the formatter's length-dependent policy at lengths 0, 1, 2 and 3. -/
theorem formatter_policy :
    join_with_conjunction "and" [] = "(none)" ∧
    join_with_conjunction "and" ["x"] = "x" ∧
    join_with_conjunction "and" ["x", "y"] = "x and y" ∧
    join_with_conjunction "and" ["x", "y", "z"] = "x, y, and z" :=
  ⟨rfl, rfl, rfl, rfl⟩

theorem colChars_length_le : ∀ k m : Nat, 1 ≤ k → m < 26 ^ k → (colChars m).length ≤ k := by
  intro k
  induction k with
  | zero => intro m h _; omega
  | succ k ih =>
    intro m _ hm
    rw [colChars]
    split
    · simp
    · rename_i h0
      have hk1 : 1 ≤ k := by
        by_contra hc
        have hk0 : k = 0 := by omega
        subst hk0
        rw [pow_one] at hm
        omega
      rw [List.length_cons]
      have h26 : m / 26 < 26 ^ k :=
        (Nat.div_lt_iff_lt_mul (by decide)).mpr (by rw [← pow_succ]; exact hm)
      exact Nat.succ_le_succ (ih (m / 26 - 1) hk1 (by omega))

/-- C10: the letter portion of any label has at most 14 characters, so a
label has length at most 14 for `n ≥ 0` and at most 15 for `n < 0`. -/
theorem label_length_bound (n : Int) (h1 : i64min ≤ n) (h2 : n ≤ i64max) :
    (0 ≤ n → (column_name n).length ≤ 14) ∧ (n < 0 → (column_name n).length ≤ 15) := by
  have hp : (26 : Nat) ^ 14 = 64509974703297150976 := by norm_num
  constructor
  · intro hn
    unfold column_name
    rw [if_neg (by omega : ¬ n < 0)]
    show (colChars n.toNat).reverse.length ≤ 14
    rw [List.length_reverse]
    apply colChars_length_le 14 _ (by norm_num)
    rw [hp]
    rw [i64max_eq] at h2
    omega
  · intro hn
    unfold column_name
    rw [if_pos hn]
    show ('n' :: (colChars (-(n + 1)).toNat).reverse).length ≤ 15
    rw [List.length_cons, List.length_reverse]
    have hlen := colChars_length_le 14 ((-(n + 1)).toNat) (by norm_num)
      (by rw [hp]; rw [i64min_eq] at h1; omega)
    omega

theorem label_length_bound_witness :
    (column_name 3).length ≤ 14 ∧ (column_name (-3)).length ≤ 15 :=
  ⟨(label_length_bound 3 (by decide) (by decide)).1 (by decide),
   (label_length_bound (-3) (by decide) (by decide)).2 (by decide)⟩


end Quadratic
